import Mathlib

/-!
Verification development for the airev diff worker and event scheduler.

Shallow embedding of `src/airev/src/git/worker.rs`, `src/airev/src/git/types.rs`,
`src/airev/src/event.rs` and the event loop of `src/airev/src/main.rs`.

Rust strings are modelled as `List Char`; `u32`/`usize` as `Nat`; fallible
external git2 calls as `Except`-valued fields of an abstract `Repo`; the
external syntect highlighter and the `similar` word-diff engine as abstract
function parameters (`HLEnv`).  The `diff.foreach` callback protocol of git2
is modelled as a list of `DiffEvent`s folded by the extraction functions,
mirroring the sequential callback invocations.
-/

namespace Airev

/-- Rust `String`/`&str`, modelled as its character sequence. -/
abbrev Str := List Char

/-- Origin character and content of one diff line as delivered by the git2
`line_cb` callback (`git2::DiffLine`). -/
structure LineInfo where
  origin : Char
  content : Str
  old_lineno : Option Nat
  new_lineno : Option Nat
  deriving DecidableEq, Repr

/-- The data of a git2 `DiffHunk` visible to the `hunk_cb` callback. -/
structure HunkInfo where
  header : Str
  old_start : Nat
  new_start : Nat
  deriving DecidableEq, Repr

/-- git2 `Delta` status values (`git2::Delta`). -/
inductive Delta where
  | unmodified
  | added
  | deleted
  | modified
  | renamed
  | copied
  | ignored
  | untracked
  | typechange
  | unreadable
  | conflicted
  deriving DecidableEq, Repr

/-- The data of a git2 `DiffDelta` visible to the `file_cb` callback:
`delta.new_file().path()` (possibly absent) and `delta.status()`. -/
structure DeltaInfo where
  new_file_path : Option Str
  status : Delta
  deriving DecidableEq, Repr

/-- One callback invocation of `git2::Diff::foreach`: the file callback, the
hunk callback, or the line callback, in the order git2 fires them. -/
inductive DiffEvent where
  | file (d : DeltaInfo)
  | hunk (h : HunkInfo)
  | line (l : LineInfo)
  deriving DecidableEq, Repr

/-- The `OwnedDiffLine` from `git/types.rs`. -/
structure OwnedDiffLine where
  origin : Char
  content : Str
  old_lineno : Option Nat
  new_lineno : Option Nat
  deriving DecidableEq, Repr

/-- The `OwnedDiffHunk` from `git/types.rs`. -/
structure OwnedDiffHunk where
  header : Str
  old_start : Nat
  new_start : Nat
  lines : List OwnedDiffLine
  deriving DecidableEq, Repr

/-- The `FileSummary` from `git/types.rs`. -/
structure FileSummary where
  path : Str
  status : Char
  added : Nat
  removed : Nat
  deriving DecidableEq, Repr

/-- The `DiffMode` from `git/types.rs`. -/
inductive DiffMode where
  | unstaged
  | staged
  | commitRange
  | branchComparison
  deriving DecidableEq, Repr

/-- The `GitRequest` from `git/types.rs`. -/
inductive GitRequest where
  | loadDiff (mode : DiffMode)
  | loadDiffRange (fromRef : Str) (toRef : Str)
  deriving DecidableEq, Repr

/-- Conversion performed inside the `line_cb` closure of `extract_hunks`
(worker.rs lines 184-191): the borrowed `DiffLine` data is copied into an
`OwnedDiffLine`. -/
def toOwnedLine (l : LineInfo) : OwnedDiffLine :=
  { origin := l.origin, content := l.content,
    old_lineno := l.old_lineno, new_lineno := l.new_lineno }

/-- The `if let Some(h) = hunks.last_mut() { h.lines.push(line) }` update of
`extract_hunks` (worker.rs line 189): append a line to the last hunk when one
exists, otherwise leave the accumulator unchanged. -/
def appendLineToLast : List OwnedDiffHunk → OwnedDiffLine → List OwnedDiffHunk
  | [], _ => []
  | [h], l => [{ h with lines := h.lines ++ [l] }]
  | h :: h2 :: rest, l => h :: appendLineToLast (h2 :: rest) l

/-- One callback step of `extract_hunks` (worker.rs lines 166-194), acting on
the accumulator pair `(hunks, file_hunk_starts)`:
file callback pushes the current hunk count onto `file_hunk_starts`; hunk
callback pushes a fresh hunk with an empty line buffer; line callback appends
to the last hunk when present. -/
def extractHunksStep (s : List OwnedDiffHunk × List Nat) :
    DiffEvent → List OwnedDiffHunk × List Nat
  | .file _ => (s.1, s.2 ++ [s.1.length])
  | .hunk h =>
      (s.1 ++ [{ header := h.header, old_start := h.old_start,
                 new_start := h.new_start, lines := [] }], s.2)
  | .line l => (appendLineToLast s.1 (toOwnedLine l), s.2)

/-- The `extract_hunks` (worker.rs lines 156-197): fold the callback sequence of
`diff.foreach` starting from empty accumulators and return
`(hunks, file_hunk_starts)`. -/
def extractHunks (evs : List DiffEvent) : List OwnedDiffHunk × List Nat :=
  evs.foldl extractHunksStep ([], [])

/-- The status-character projection of `extract_files` (worker.rs lines
218-223): `Added`, `Deleted`, `Renamed` map to their letters, every other
delta status maps to `'M'`. -/
def statusChar : Delta → Char
  | .added => 'A'
  | .deleted => 'D'
  | .renamed => 'R'
  | _ => 'M'

/-- The `if let Some(f) = files.last_mut()` update of the line callback of
`extract_files` (worker.rs lines 229-238): bump the added or removed counter
of the last file summary according to the line origin. -/
def updateLastFile : List FileSummary → Char → List FileSummary
  | [], _ => []
  | [f], c =>
      [if c = '+' then { f with added := f.added + 1 }
       else if c = '-' then { f with removed := f.removed + 1 }
       else f]
  | f :: f2 :: rest, c => f :: updateLastFile (f2 :: rest) c

/-- One callback step of `extract_files` (worker.rs lines 210-239).  The hunk
callback slot is `None` in the source, so hunk events leave the accumulator
unchanged.  The file callback pushes a summary seeded with the delta path
(`"unknown"` when absent) and status character. -/
def extractFilesStep (files : List FileSummary) : DiffEvent → List FileSummary
  | .file d =>
      files ++ [{ path := d.new_file_path.getD ("unknown".toList),
                  status := statusChar d.status, added := 0, removed := 0 }]
  | .hunk _ => files
  | .line l => updateLastFile files l.origin

/-- The `extract_files` (worker.rs lines 205-243): fold the callback sequence of
`diff.foreach` starting from an empty file list. -/
def extractFiles (evs : List DiffEvent) : List FileSummary :=
  evs.foldl extractFilesStep []

/-- Subset of `ratatui::style::Color` used by the worker, plus the `Rgb`
constructor produced by `syntect_to_span`. -/
inductive Color where
  | red
  | green
  | cyan
  | darkGray
  | rgb (r g b : Nat)
  deriving DecidableEq, Repr

/-- Subset of `ratatui::style::Modifier` used by the worker. -/
inductive Modifier where
  | bold
  | italic
  | underlined
  deriving DecidableEq, Repr

/-- The `ratatui::style::Style` restricted to the fields the worker sets. -/
structure Style where
  fg : Option Color := none
  bg : Option Color := none
  mods : List Modifier := []
  deriving DecidableEq, Repr

/-- The `Style::default().fg(c)`. -/
def fgStyle (c : Color) : Style := { fg := some c }

/-- The `ratatui::text::Span` with owned content. -/
structure Span where
  text : Str
  style : Style
  deriving DecidableEq, Repr

/-- The `ratatui::text::Line`: a sequence of spans. -/
abbrev RLine := List Span

/-- A `similar::ChangeTag` (worker.rs lines 308-330). -/
inductive ChangeTag where
  | delete
  | insert
  | equal
  deriving DecidableEq, Repr

/-- One inline change yielded by `diff.iter_inline_changes(op)` in
`word_diff_spans`: a tag plus the `(emphasized, value)` pieces produced by
`change.iter_strings_lossy()`. -/
structure InlineChange where
  tag : ChangeTag
  pieces : List (Bool × Str)
  deriving DecidableEq, Repr

/-- Abstract environment for the external collaborators of
`highlight_hunks`:
`theme` is the presence of a highlighting theme (worker.rs line 343);
`init` is the state of a fresh `HighlightLines` (worker.rs line 357,
rebuilt for every hunk);
`highlight` is `build_syntect_spans` (worker.rs lines 277-290), threading
the mutable highlighter state and returning the spans for one line of code;
`wordChanges` is the flattened change stream that
`similar::TextDiff::from_words(old, new)` yields in `word_diff_spans`
(worker.rs lines 304-306). -/
structure HLEnv (σ : Type) where
  theme : Option Unit
  init : σ
  highlight : σ → Str → σ × RLine
  wordChanges : Str → Str → List InlineChange

/-- Body of the double loop of `word_diff_spans` (worker.rs lines 304-334):
fold one inline change into the `(old_spans, new_spans)` accumulators.
Deleted pieces go to the old line in red (bold when emphasized), inserted
pieces to the new line in green (bold when emphasized), equal pieces to both
lines in dark gray. -/
def wordDiffStep (acc : RLine × RLine) (ch : InlineChange) : RLine × RLine :=
  ch.pieces.foldl
    (fun acc2 p =>
      match ch.tag with
      | .delete =>
          (acc2.1 ++ [⟨p.2, if p.1 then { fg := some .red, mods := [.bold] }
                            else { fg := some .red }⟩], acc2.2)
      | .insert =>
          (acc2.1, acc2.2 ++ [⟨p.2, if p.1 then { fg := some .green, mods := [.bold] }
                                    else { fg := some .green }⟩])
      | .equal =>
          (acc2.1 ++ [⟨p.2, { fg := some .darkGray }⟩],
           acc2.2 ++ [⟨p.2, { fg := some .darkGray }⟩]))
    acc

/-- The `word_diff_spans` (worker.rs lines 296-336) over the abstract change
stream: returns the old-line spans and the new-line spans. -/
def wordDiffSpans {σ : Type} (env : HLEnv σ) (oldLine newLine : Str) :
    RLine × RLine :=
  (env.wordChanges oldLine newLine).foldl wordDiffStep ([], [])

/-- The `content.starts_with(['+', '-', ' '])` marker strip of
`highlight_hunks` (worker.rs line 370): drop the first character when it is
an origin marker. -/
def stripMarker (content : Str) : Str :=
  match content with
  | c :: rest => if c = '+' ∨ c = '-' ∨ c = ' ' then rest else c :: rest
  | [] => []

/-- Rust `trim_end_matches('\n')` (worker.rs line 371): remove every trailing
newline character. -/
def trimEndNewlines (s : Str) : Str :=
  (s.reverse.dropWhile (fun c => c = '\n')).reverse

/-- The text handed to the language highlighter for one diff line
(worker.rs lines 369-371): strip a leading origin marker if present, then
trim trailing newlines. -/
def lineCode (content : Str) : Str :=
  trimEndNewlines (stripMarker content)

/-- Rust `trim_end` (worker.rs line 352): remove trailing whitespace. -/
def trimEndWs (s : Str) : Str :=
  (s.reverse.dropWhile Char.isWhitespace).reverse

/-- The styled hunk-header line pushed at the top of every hunk
(worker.rs lines 352-353). -/
def headerLine (hk : OwnedDiffHunk) : RLine :=
  [⟨trimEndWs hk.header, fgStyle .cyan⟩]

/-- The `Span::styled("- ", red)` removed-line marker (worker.rs line 379). -/
def removedMarkSpan : Span := ⟨"- ".toList, fgStyle .red⟩

/-- The `Span::styled("+ ", green)` added-line marker (worker.rs line 390). -/
def addedMarkSpan : Span := ⟨"+ ".toList, fgStyle .green⟩

/-- The `format!("{origin} ")` context marker (worker.rs lines 404-405). -/
def originMarkSpan (origin : Char) : Span :=
  ⟨[origin, ' '], fgStyle .darkGray⟩

/-- Flush of the `pending_removed` buffer (worker.rs lines 376-378, 401-403,
412-414): emit the buffered removed line, if any. -/
def flushPending : Option (Str × RLine) → List RLine
  | some p => [p.2]
  | none => []

/-- The per-line loop of `highlight_hunks` (worker.rs lines 364-414),
threading the highlighter state and the `pending_removed` buffer.
A removed line flushes any previous pending line and becomes pending; an
added line either word-diffs against the pending removed line (emitting the
pair consecutively) or is emitted alone; any other origin flushes the pending
line and is emitted with its origin marker.  After the last line the pending
buffer is flushed. -/
def hunkBody {σ : Type} (env : HLEnv σ) :
    List OwnedDiffLine → σ → Option (Str × RLine) → List RLine
  | [], _, pending => flushPending pending
  | dl :: rest, h, pending =>
      let code := lineCode dl.content
      let hb := env.highlight h code
      if dl.origin = '-' then
        flushPending pending ++
          hunkBody env rest hb.1 (some (code, removedMarkSpan :: hb.2))
      else if dl.origin = '+' then
        match pending with
        | some oldp =>
            let wd := wordDiffSpans env oldp.1 code
            (removedMarkSpan :: wd.1) :: (addedMarkSpan :: wd.2) ::
              hunkBody env rest hb.1 none
        | none => (addedMarkSpan :: hb.2) :: hunkBody env rest hb.1 none
      else
        flushPending pending ++
          ((originMarkSpan dl.origin :: hb.2) :: hunkBody env rest hb.1 none)

/-- The `emit_plain_hunk_lines` (worker.rs lines 423-433): the no-theme fallback
emits one single-span line per diff line, colored by origin only. -/
def plainHunkLines (lines : List OwnedDiffLine) : List RLine :=
  lines.map (fun dl =>
    let color := if dl.origin = '+' then Color.green
                 else if dl.origin = '-' then Color.red
                 else Color.darkGray
    [⟨dl.origin :: ' ' :: trimEndNewlines dl.content, fgStyle color⟩])

/-- The hunk loop of `highlight_hunks` (worker.rs lines 349-415), with the
running `highlighted_lines.len()` made explicit as the parameter `n`: for
each hunk, record `n` as the next `hunk_offsets` entry, emit the header line,
then either the plain fallback lines (no theme) or the syntax/word-diff body
with a fresh highlighter state. -/
def highlightHunksFrom {σ : Type} (env : HLEnv σ) :
    List OwnedDiffHunk → Nat → List RLine × List Nat
  | [], _ => ([], [])
  | hk :: rest, n =>
      let body :=
        match env.theme with
        | none => plainHunkLines hk.lines
        | some _ => hunkBody env hk.lines env.init none
      let newLines := headerLine hk :: body
      let tail := highlightHunksFrom env rest (n + newLines.length)
      (newLines ++ tail.1, n :: tail.2)

/-- The `highlight_hunks` (worker.rs lines 342-418): returns the flattened
highlighted lines and the hunk-header offsets. -/
def highlightHunks {σ : Type} (env : HLEnv σ) (hunks : List OwnedDiffHunk) :
    List RLine × List Nat :=
  highlightHunksFrom env hunks 0

/-- A resolved diff, structured the way git2 walks it: deltas in diff order,
each with its hunks, each hunk with its lines. -/
structure HunkData where
  meta : HunkInfo
  lineData : List LineInfo
  deriving DecidableEq, Repr

/-- One delta (file) of a resolved diff, with its hunks. -/
structure FileDiff where
  meta : DeltaInfo
  hunks : List HunkData
  deriving DecidableEq, Repr

/-- The callback events fired for the hunks of one delta: for every hunk the
hunk callback, then one line callback per line. -/
def fileSeg (f : FileDiff) : List DiffEvent :=
  f.hunks.flatMap (fun h => DiffEvent.hunk h.meta :: h.lineData.map DiffEvent.line)

/-- The full `diff.foreach` callback sequence of a resolved diff: for every
delta the file callback followed by its hunk and line callbacks. -/
def diffEvents (ds : List FileDiff) : List DiffEvent :=
  ds.flatMap (fun f => DiffEvent.file f.meta :: fileSeg f)

/-- The `file_ext` (worker.rs lines 438-440): `path.rsplit('.').next()`, i.e. the
suffix after the last dot, or the whole path when it has no dot. -/
def fileExt (path : Str) : Str :=
  (path.reverse.takeWhile (fun c => ¬ c = '.')).reverse

/-- The `git2::Error`, carrying only its message. -/
structure GitErr where
  msg : Str
  deriving DecidableEq, Repr

/-- The `GitResultPayload` from `git/types.rs`. -/
structure GitResultPayload where
  mode : DiffMode
  hunks : List OwnedDiffHunk
  files : List FileSummary
  highlighted_lines : List RLine
  hunk_offsets : List Nat
  file_line_offsets : List Nat
  deriving DecidableEq, Repr

/-- The extension choice of `process_diff` (worker.rs line 136):
`files.first().map(|f| file_ext(&f.path)).unwrap_or("txt")`. -/
def diffExt (ds : List FileDiff) : Str :=
  match (extractFiles (diffEvents ds)).head? with
  | some f => fileExt f.path
  | none => "txt".toList

/-- The `process_diff` (worker.rs lines 133-145): extract hunks and files from
the diff, pick the extension of the first file (defaulting to "txt"),
highlight, and map `file_hunk_starts` through `hunk_offsets` with
`hunk_offsets.get(hunk_idx).copied().unwrap_or(0)` to build
`file_line_offsets`.  `mkEnv` abstracts the ambient syntect syntax/theme
tables, indexed by the chosen extension. -/
def processDiff {σ : Type} (mkEnv : Str → HLEnv σ) (mode : DiffMode)
    (ds : List FileDiff) : GitResultPayload :=
  let eh := extractHunks (diffEvents ds)
  let files := extractFiles (diffEvents ds)
  let hl := highlightHunks (mkEnv (diffExt ds)) eh.1
  { mode := mode, hunks := eh.1, files := files,
    highlighted_lines := hl.1, hunk_offsets := hl.2,
    file_line_offsets := eh.2.map (fun k => (hl.2.get? k).getD 0) }

/-- The repository handle, abstracted to the outcomes of the git2 call
chains the worker performs: each simple mode's diff (worker.rs lines 82-100)
and the range form (worker.rs lines 111-126) either resolve to a structured
diff or fail with a `git2::Error`. -/
structure Repo where
  unstagedDiff : Except GitErr (List FileDiff)
  stagedDiff : Except GitErr (List FileDiff)
  branchDiff : Except GitErr (List FileDiff)
  rangeDiff : Str → Str → Except GitErr (List FileDiff)

/-- The `get_diff_for_mode` (worker.rs lines 80-106).  `CommitRange` always
fails with `git2::Error::from_str("CommitRange requires LoadDiffRange")`. -/
def getDiffForMode (repo : Repo) : DiffMode → Except GitErr (List FileDiff)
  | .unstaged => repo.unstagedDiff
  | .staged => repo.stagedDiff
  | .branchComparison => repo.branchDiff
  | .commitRange => .error ⟨"CommitRange requires LoadDiffRange".toList⟩

/-- The `get_diff_for_range` (worker.rs lines 111-126). -/
def getDiffForRange (repo : Repo) (fromRef toRef : Str) :
    Except GitErr (List FileDiff) :=
  repo.rangeDiff fromRef toRef

/-- The empty payload built on a resolution failure
(worker.rs lines 66-73). -/
def emptyPayload (mode : DiffMode) : GitResultPayload :=
  { mode := mode, hunks := [], files := [], highlighted_lines := [],
    hunk_offsets := [], file_line_offsets := [] }

/-- The `handle_request` (worker.rs lines 56-75): dispatch the request, then
either process the diff or degrade gracefully to an empty payload carrying
the requested mode. -/
def handleRequest {σ : Type} (mkEnv : Str → HLEnv σ) (repo : Repo)
    (request : GitRequest) : GitResultPayload :=
  let mr : DiffMode × Except GitErr (List FileDiff) :=
    match request with
    | .loadDiff mode => (mode, getDiffForMode repo mode)
    | .loadDiffRange f t => (DiffMode.commitRange, getDiffForRange repo f t)
  match mr.2 with
  | .ok diff => processDiff mkEnv mr.1 diff
  | .error _ => emptyPayload mr.1

/-- The `for request in rx` loop of `git_worker_loop` (worker.rs lines
47-51), over the finite sequence of requests received before the channel
closes.  `alive i` tells whether the result receiver still exists when the
`i`-th payload is sent; `let _ = event_tx.send(...)` discards the send
outcome, so the loop body runs for every request regardless.  Returns the
payloads that were actually delivered and the number of requests
processed. -/
def workerGo {σ : Type} (mkEnv : Str → HLEnv σ) (repo : Repo)
    (alive : Nat → Bool) : List GitRequest → Nat → List GitResultPayload × Nat
  | [], _ => ([], 0)
  | req :: rest, i =>
      let payload := handleRequest mkEnv repo req
      let tail := workerGo mkEnv repo alive rest (i + 1)
      ((if alive i then [payload] else []) ++ tail.1, tail.2 + 1)

/-- The `git_worker_loop` (worker.rs lines 31-51): if opening the repository
fails the worker returns immediately without producing anything; otherwise
it drains the request channel. -/
def gitWorkerLoop {σ : Type} (mkEnv : Str → HLEnv σ)
    (openResult : Except GitErr Repo) (requests : List GitRequest)
    (alive : Nat → Bool) : List GitResultPayload × Nat :=
  match openResult with
  | .error _ => ([], 0)
  | .ok repo => workerGo mkEnv repo alive requests 0

/-- The `crossterm::event::KeyEventKind`. -/
inductive KeyEventKind where
  | press
  | release
  | repeatKind
  deriving DecidableEq, Repr

/-- The `crossterm::event::KeyCode`, restricted to what the loop inspects. -/
inductive KeyCode where
  | char (c : Char)
  | otherKey
  deriving DecidableEq, Repr

/-- The `crossterm::event::KeyEvent`. -/
structure KeyEvent where
  code : KeyCode
  kind : KeyEventKind
  deriving DecidableEq, Repr

/-- The `crossterm::event::MouseEvent`, opaque to the loops modelled here. -/
structure MouseEvt where
  id : Nat
  deriving DecidableEq, Repr

/-- The `crossterm::event::Event`, restricted to the arms `spawn_event_task`
matches; every other variant falls into `otherEvent`. -/
inductive CrossEvent where
  | key (k : KeyEvent)
  | resize (w h : Nat)
  | mouse (m : MouseEvt)
  | otherEvent
  deriving DecidableEq, Repr

/-- The `AppEvent` from `event.rs`. -/
inductive AppEvent where
  | key (k : KeyEvent)
  | mouse (m : MouseEvt)
  | resize (w h : Nat)
  | tick
  | render
  | fileChanged
  | gitResult (p : GitResultPayload)
  | dbResult
  | quit
  deriving DecidableEq, Repr

/-- Result of one `reader.next()` poll: `Some(Ok(event))`,
`Some(Err(read error))`, or `None` (stream ended). -/
inductive TermRead where
  | ok (e : CrossEvent)
  | readErr
  | streamEnd
  deriving DecidableEq, Repr

/-- One ready source in the `tokio::select!` of `spawn_event_task`
(event.rs lines 110-132): the 250 ms logic tick timer, the 33 ms render
timer, or the crossterm stream yielding `Option<Result<Event>>`. -/
inductive TaskStimulus where
  | tickTimer
  | renderTimer
  | term (r : TermRead)
  deriving DecidableEq, Repr

/-- The events `spawn_event_task` sends for one ready source (event.rs lines
110-132): a tick timer sends `Tick`, the render timer sends `Render`, a key
event is forwarded only when its kind is `Press`, resize and mouse events are
forwarded, and everything else is dropped. -/
def eventTaskStep : TaskStimulus → List AppEvent
  | .tickTimer => [.tick]
  | .renderTimer => [.render]
  | .term (.ok (.key k)) =>
      if k.kind = KeyEventKind.press then [.key k] else []
  | .term (.ok (.resize w h)) => [.resize w h]
  | .term (.ok (.mouse m)) => [.mouse m]
  | .term _ => []

/-- The stream of events `spawn_event_task` sends for a sequence of ready
sources. -/
def eventTaskSends (stims : List TaskStimulus) : List AppEvent :=
  stims.flatMap eventTaskStep

/-- One ready arm of the `tokio::select!` of the main event loop
(main.rs lines 103-142): the 50 ms heartbeat, or a received event
(`none` when the channel closed). -/
inductive LoopStimulus where
  | heartbeat
  | recv (e : Option AppEvent)
  deriving DecidableEq, Repr

/-- The only externally visible action of the loop body: a
`terminal.draw(...)` call. -/
inductive UiAction where
  | draw
  deriving DecidableEq, Repr

/-- The `matches!(key.code, KeyCode::Char('q') | KeyCode::Char('Q'))` quit
test (main.rs line 122). -/
def isQuitKey (k : KeyEvent) : Bool :=
  match k.code with
  | .char c => c = 'q' ∨ c = 'Q'
  | .otherKey => false

/-- One iteration of the main event loop (main.rs lines 103-142) given the
current SIGTERM flag value: returns the draw actions performed and whether
the loop breaks.  Only the `Render` arm draws; `q`/`Q`, `Quit`, and channel
close break; after every received event the flag is checked too. -/
def mainStep (flag : Bool) : LoopStimulus → List UiAction × Bool
  | .heartbeat => ([], flag)
  | .recv (some .render) => ([.draw], flag)
  | .recv (some (.key k)) => ([], isQuitKey k || flag)
  | .recv (some .quit) => ([], true)
  | .recv none => ([], true)
  | .recv (some _) => ([], flag)

/-- The main event loop over a finite sequence of ready stimuli, with the
SIGTERM flag sampled at each iteration index: runs `mainStep` and stops at
the first break. -/
def mainLoop (flag : Nat → Bool) : List LoopStimulus → Nat → List UiAction
  | [], _ => []
  | s :: rest, i =>
      let r := mainStep (flag i) s
      if r.2 then r.1 else r.1 ++ mainLoop flag rest (i + 1)

/-- Number of hunks of the first `i` deltas of a structured diff: the value
`extract_hunks` records in `file_hunk_starts` for file `i`. -/
def hunksBefore (ds : List FileDiff) (i : Nat) : Nat :=
  ((ds.take i).map (fun f => f.hunks.length)).sum

/-- Total hunk count of a structured diff. -/
def totalHunks (ds : List FileDiff) : Nat :=
  (ds.map (fun f => f.hunks.length)).sum

/-- One step of the combined single-pass extraction: run the `extract_hunks`
step and the `extract_files` step on the same event. -/
def extractAllStep (s : (List OwnedDiffHunk × List Nat) × List FileSummary)
    (e : DiffEvent) : (List OwnedDiffHunk × List Nat) × List FileSummary :=
  (extractHunksStep s.1 e, extractFilesStep s.2 e)

/-- A single traversal of the callback sequence computing the hunk list, the
per-file starting hunk indices, and the file summaries together. -/
def extractAll (evs : List DiffEvent) :
    (List OwnedDiffHunk × List Nat) × List FileSummary :=
  evs.foldl extractAllStep (([], []), [])

/-- Number of `diff.foreach` traversals performed by `extract_hunks` per
invocation: one (the single call at worker.rs line 166). -/
def extractHunksForeachCalls : Nat := 1

/-- Number of `diff.foreach` traversals performed by `extract_files` per
invocation: one (the single call at worker.rs line 210). -/
def extractFilesForeachCalls : Nat := 1

/-- Number of `diff.foreach` traversals of the resolved diff performed by
`process_diff` per invocation: it calls `extract_hunks(diff)` (worker.rs
line 134) and then `extract_files(diff)` (worker.rs line 135), each of which
traverses the diff once. -/
def processDiffForeachCalls : Nat :=
  extractHunksForeachCalls + extractFilesForeachCalls

/-- Removal of exactly one trailing newline, when present: the spec's
description of the newline trim applied to a diff line. -/
def stripOneTrailingNewline (s : Str) : Str :=
  if s.getLast? = some '\n' then s.dropLast else s

/-- Spec-side count of draws expected for one loop stimulus: one for a
received `Render` event, zero for anything else. -/
def renderStimCount : LoopStimulus → Nat
  | .recv (some .render) => 1
  | _ => 0

/-- Spec-side count of `Render` events expected for one task stimulus: one
for a fast-timer (render interval) tick, zero for anything else. -/
def renderTimerCount : TaskStimulus → Nat
  | .renderTimer => 1
  | _ => 0

/-- Recognizer for the `Render` event. -/
def isRenderEvent : AppEvent → Bool
  | .render => true
  | _ => false

/-- A trivial abstract highlighter environment (a theme is present, the
highlighter returns no spans, the word diff yields no changes), used to
instantiate universally quantified theorems at a concrete input. -/
def trivEnv : HLEnv Unit :=
  { theme := some (), init := (),
    highlight := fun s _ => (s, []),
    wordChanges := fun _ _ => [] }

/-- The trivial environment for every extension. -/
def trivMkEnv : Str → HLEnv Unit := fun _ => trivEnv

/-- A repository on which every resolution fails. -/
def trivRepo : Repo :=
  { unstagedDiff := .error ⟨[]⟩, stagedDiff := .error ⟨[]⟩,
    branchDiff := .error ⟨[]⟩, rangeDiff := fun _ _ => .error ⟨[]⟩ }

/-- A sample removed line. -/
def sampleRem : LineInfo := ⟨'-', "-foo\n".toList, some 1, none⟩

/-- A sample added line. -/
def sampleAdd : LineInfo := ⟨'+', "+bar\n".toList, none, some 1⟩

/-- A sample hunk holding the removed/added pair. -/
def sampleHunk : HunkData :=
  ⟨⟨"@@ -1 +1 @@\n".toList, 1, 1⟩, [sampleRem, sampleAdd]⟩

/-- A sample delta with a `Copied` status (not one of A/D/R). -/
def sampleDelta : DeltaInfo := ⟨some ("a.rs".toList), Delta.copied⟩

/-- A one-file structured diff. -/
def sampleDs : List FileDiff := [⟨sampleDelta, [sampleHunk]⟩]

/-- A repository whose unstaged diff resolves to `sampleDs`. -/
def sampleRepo : Repo :=
  { unstagedDiff := .ok sampleDs, stagedDiff := .error ⟨[]⟩,
    branchDiff := .error ⟨[]⟩, rangeDiff := fun _ _ => .error ⟨[]⟩ }

/-- The sample removed line as stored in an owned hunk. -/
def sampleRemOwned : OwnedDiffLine := toOwnedLine sampleRem

/-- The sample added line as stored in an owned hunk. -/
def sampleAddOwned : OwnedDiffLine := toOwnedLine sampleAdd

/-- The sample hunk as an owned hunk. -/
def sampleOwnedHunk : OwnedDiffHunk :=
  ⟨"@@ -1 +1 @@\n".toList, 1, 1, [sampleRemOwned, sampleAddOwned]⟩

/-- Appending a line to the last hunk preserves the hunk count. -/
theorem appendLineToLast_length :
    ∀ (hs : List OwnedDiffHunk) (l : OwnedDiffLine),
      (appendLineToLast hs l).length = hs.length
  | [], _ => rfl
  | [_], _ => rfl
  | _ :: h2 :: rest, l => by
      simpa [appendLineToLast] using appendLineToLast_length (h2 :: rest) l

/-- Updating the last file summary preserves the file count. -/
theorem updateLastFile_length :
    ∀ (fs : List FileSummary) (c : Char),
      (updateLastFile fs c).length = fs.length
  | [], _ => rfl
  | [_], _ => rfl
  | _ :: f2 :: rest, c => by
      simpa [updateLastFile] using updateLastFile_length (f2 :: rest) c

/-- Updating the last file summary only changes counters: every status in
the result is the status of some input summary. -/
theorem updateLastFile_status (P : Char → Prop) :
    ∀ (fs : List FileSummary) (c : Char),
      (∀ f ∈ fs, P f.status) → ∀ f ∈ updateLastFile fs c, P f.status
  | [], _, _, f, hf => by cases hf
  | [g], c, hp, f, hf => by
      have hg := hp g (by simp)
      simp only [updateLastFile, List.mem_singleton] at hf
      subst hf
      split <;> try split
      all_goals simpa using hg
  | g :: g2 :: rest, c, hp, f, hf => by
      simp only [updateLastFile] at hf
      rcases List.mem_cons.mp hf with rfl | hf2
      · exact hp f (by simp)
      · exact updateLastFile_status P (g2 :: rest) c
          (fun x hx => hp x (List.mem_cons_of_mem g hx)) f hf2

/-- The status character is always one of `'A'`, `'D'`, `'R'`, `'M'`. -/
theorem statusChar_good (d : Delta) :
    statusChar d = 'A' ∨ statusChar d = 'D' ∨ statusChar d = 'R' ∨
      statusChar d = 'M' := by
  cases d <;> decide

/-- Every delta status other than added, deleted or renamed maps to `'M'`. -/
theorem statusChar_other (d : Delta) (h1 : d ≠ Delta.added)
    (h2 : d ≠ Delta.deleted) (h3 : d ≠ Delta.renamed) : statusChar d = 'M' := by
  cases d <;> first | rfl | exact absurd rfl (by assumption)

/-- Folding `extract_files` steps preserves the goodness of statuses. -/
theorem extractFiles_fold_status :
    ∀ (evs : List DiffEvent) (fs : List FileSummary),
      (∀ f ∈ fs, f.status = 'A' ∨ f.status = 'D' ∨ f.status = 'R' ∨
        f.status = 'M') →
      ∀ f ∈ evs.foldl extractFilesStep fs,
        f.status = 'A' ∨ f.status = 'D' ∨ f.status = 'R' ∨ f.status = 'M'
  | [], fs, hp, f, hf => hp f hf
  | e :: evs, fs, hp, f, hf => by
      refine extractFiles_fold_status evs (extractFilesStep fs e) ?_ f hf
      intro g hg
      cases e with
      | file d =>
          rcases List.mem_append.mp hg with hg1 | hg2
          · exact hp g hg1
          · rcases List.mem_singleton.mp hg2 with rfl
            exact statusChar_good d.status
      | hunk h => exact hp g hg
      | line l =>
          exact updateLastFile_status
            (fun c => c = 'A' ∨ c = 'D' ∨ c = 'R' ∨ c = 'M')
            fs l.origin hp g hg

/-- Line events leave `file_hunk_starts` untouched and preserve the hunk
count. -/
theorem foldl_hunksStep_lines :
    ∀ (ls : List LineInfo) (s : List OwnedDiffHunk × List Nat),
      ((ls.map DiffEvent.line).foldl extractHunksStep s).2 = s.2 ∧
      ((ls.map DiffEvent.line).foldl extractHunksStep s).1.length = s.1.length
  | [], _ => ⟨rfl, rfl⟩
  | l :: ls, s => by
      have h := foldl_hunksStep_lines ls (extractHunksStep s (.line l))
      simp only [List.map_cons, List.foldl_cons]
      refine ⟨h.1, h.2.trans ?_⟩
      simp [extractHunksStep, appendLineToLast_length]

/-- Folding the hunk and line events of a delta leaves `file_hunk_starts`
untouched and adds the delta's hunk count to the hunk list. -/
theorem foldl_hunksStep_seg :
    ∀ (hks : List HunkData) (s : List OwnedDiffHunk × List Nat),
      ((hks.flatMap (fun h => DiffEvent.hunk h.meta ::
          h.lineData.map DiffEvent.line)).foldl extractHunksStep s).2 = s.2 ∧
      ((hks.flatMap (fun h => DiffEvent.hunk h.meta ::
          h.lineData.map DiffEvent.line)).foldl extractHunksStep s).1.length =
        s.1.length + hks.length
  | [], _ => ⟨rfl, rfl⟩
  | hk :: hks, s => by
      simp only [List.flatMap_cons, List.foldl_cons, List.foldl_append]
      set s1 := extractHunksStep s (.hunk hk.meta) with hs1
      have hlines := foldl_hunksStep_lines hk.lineData s1
      set s2 := (hk.lineData.map DiffEvent.line).foldl extractHunksStep s1 with hs2
      have hrest := foldl_hunksStep_seg hks s2
      refine ⟨hrest.1.trans (hlines.1.trans ?_), hrest.2.trans ?_⟩
      · simp [hs1, extractHunksStep]
      · rw [hlines.2]
        simp [hs1, extractHunksStep]
        omega

/-- The `hunksBefore` at zero. -/
theorem hunksBefore_zero (ds : List FileDiff) : hunksBefore ds 0 = 0 := rfl

/-- The `hunksBefore` of a cons at a successor index. -/
theorem hunksBefore_cons_succ (d : FileDiff) (ds : List FileDiff) (i : Nat) :
    hunksBefore (d :: ds) (i + 1) = d.hunks.length + hunksBefore ds i := by
  simp [hunksBefore, List.take_succ_cons]

/-- The `totalHunks` of a cons. -/
theorem totalHunks_cons (d : FileDiff) (ds : List FileDiff) :
    totalHunks (d :: ds) = d.hunks.length + totalHunks ds := by
  simp [totalHunks]

/-- Characterization of the `extract_hunks` fold over a structured diff:
`file_hunk_starts` appends, for each delta, the number of hunks accumulated
so far, and the hunk count grows by the total hunk count. -/
theorem foldl_hunksStep_diffEvents :
    ∀ (ds : List FileDiff) (s : List OwnedDiffHunk × List Nat),
      ((diffEvents ds).foldl extractHunksStep s).2 =
        s.2 ++ (List.range ds.length).map (fun i => s.1.length + hunksBefore ds i) ∧
      ((diffEvents ds).foldl extractHunksStep s).1.length =
        s.1.length + totalHunks ds
  | [], s => by simp [diffEvents, totalHunks]
  | d :: ds, s => by
      have hde : diffEvents (d :: ds) =
          (DiffEvent.file d.meta :: fileSeg d) ++ diffEvents ds := by
        simp [diffEvents]
      rw [hde, List.foldl_append, List.foldl_cons]
      set s1 := extractHunksStep s (.file d.meta) with hs1
      have hseg := foldl_hunksStep_seg d.hunks s1
      set s2 := (fileSeg d).foldl extractHunksStep s1 with hs2
      have hrest := foldl_hunksStep_diffEvents ds s2
      have hsnd2 : s2.2 = s.2 ++ [s.1.length] := by
        rw [hs2]
        exact (foldl_hunksStep_seg d.hunks s1).1.trans (by simp [hs1, extractHunksStep])
      have hlen2 : s2.1.length = s.1.length + d.hunks.length := by
        rw [hs2]
        exact (foldl_hunksStep_seg d.hunks s1).2.trans (by simp [hs1, extractHunksStep])
      constructor
      · rw [hrest.1, hsnd2, hlen2]
        simp only [List.length_cons]
        rw [List.range_succ_eq_map]
        simp only [List.map_cons, List.map_map, hunksBefore_zero, Nat.add_zero,
          List.append_assoc, List.singleton_append, Function.comp]
        congr 1
        congr 1
        apply List.map_congr_left
        intro i _
        simp only [Function.comp_apply, Nat.succ_eq_add_one]
        rw [hunksBefore_cons_succ]
        omega
      · rw [hrest.2, hlen2, totalHunks_cons]
        omega

/-- The per-file starting hunk indices of a structured diff. -/
theorem extractHunks_starts (ds : List FileDiff) :
    (extractHunks (diffEvents ds)).2 =
      (List.range ds.length).map (hunksBefore ds) := by
  have h := (foldl_hunksStep_diffEvents ds ([], [])).1
  simpa [extractHunks] using h

/-- The hunk count of a structured diff. -/
theorem extractHunks_length (ds : List FileDiff) :
    (extractHunks (diffEvents ds)).1.length = totalHunks ds := by
  have h := (foldl_hunksStep_diffEvents ds ([], [])).2
  simpa [extractHunks] using h

/-- Each delta's starting hunk index is bounded by the total hunk count
through the delta's own hunks. -/
theorem hunksBefore_add_le :
    ∀ (ds : List FileDiff) (i : Nat) (f : FileDiff), ds[i]? = some f →
      hunksBefore ds i + f.hunks.length ≤ totalHunks ds
  | [], i, f, h => by simp at h
  | d :: ds, 0, f, h => by
      simp at h
      subst h
      rw [totalHunks_cons, hunksBefore_zero]
      omega
  | d :: ds, i + 1, f, h => by
      simp only [List.getElem?_cons_succ] at h
      have := hunksBefore_add_le ds i f h
      rw [totalHunks_cons, hunksBefore_cons_succ]
      omega

/-- Folding `extract_files` steps over the events of a structured diff adds
one summary per delta. -/
theorem foldl_filesStep_diffEvents_length :
    ∀ (ds : List FileDiff) (fs : List FileSummary),
      ((diffEvents ds).foldl extractFilesStep fs).length = fs.length + ds.length
  | [], fs => by simp [diffEvents]
  | d :: ds, fs => by
      have hde : diffEvents (d :: ds) =
          (DiffEvent.file d.meta :: fileSeg d) ++ diffEvents ds := by
        simp [diffEvents]
      rw [hde, List.foldl_append, List.foldl_cons]
      set fs1 := extractFilesStep fs (.file d.meta) with hfs1
      have hseg : ∀ (hks : List HunkData) (gs : List FileSummary),
          ((hks.flatMap (fun h => DiffEvent.hunk h.meta ::
              h.lineData.map DiffEvent.line)).foldl extractFilesStep gs).length =
            gs.length := by
        intro hks
        induction hks with
        | nil => intro gs; rfl
        | cons hk hks ih =>
            intro gs
            simp only [List.flatMap_cons, List.foldl_cons, List.foldl_append]
            rw [ih]
            have hlines : ∀ (ls : List LineInfo) (gs2 : List FileSummary),
                ((ls.map DiffEvent.line).foldl extractFilesStep gs2).length =
                  gs2.length := by
              intro ls
              induction ls with
              | nil => intro gs2; rfl
              | cons l ls ih2 =>
                  intro gs2
                  simp only [List.map_cons, List.foldl_cons]
                  rw [ih2]
                  simp [extractFilesStep, updateLastFile_length]
            rw [hlines]
            rfl
      rw [foldl_filesStep_diffEvents_length ds]
      have hfsg : (List.foldl extractFilesStep fs1 (fileSeg d)).length =
          fs1.length := hseg d.hunks fs1
      rw [hfsg]
      simp [hfs1, extractFilesStep]
      omega

/-- One summary per delta. -/
theorem extractFiles_length (ds : List FileDiff) :
    (extractFiles (diffEvents ds)).length = ds.length := by
  simpa [extractFiles] using foldl_filesStep_diffEvents_length ds []

/-- One offset is recorded per hunk, on both the themed and the plain
fallback path. -/
theorem hhFrom_offsets_length {σ : Type} (env : HLEnv σ) :
    ∀ (hs : List OwnedDiffHunk) (n : Nat),
      (highlightHunksFrom env hs n).2.length = hs.length
  | [], _ => rfl
  | hk :: rest, n => by
      simp only [highlightHunksFrom, List.length_cons]
      rw [hhFrom_offsets_length env rest]

/-- Every recorded offset is at least the running line count. -/
theorem hhFrom_offsets_lb {σ : Type} (env : HLEnv σ) :
    ∀ (hs : List OwnedDiffHunk) (n : Nat) (x : Nat),
      x ∈ (highlightHunksFrom env hs n).2 → n ≤ x
  | [], _, x, hx => by simp [highlightHunksFrom] at hx
  | hk :: rest, n, x, hx => by
      simp only [highlightHunksFrom, List.mem_cons] at hx
      rcases hx with rfl | hx2
      · exact Nat.le_refl x
      · have := hhFrom_offsets_lb env rest _ x hx2
        omega

/-- The recorded offsets are strictly increasing: each hunk contributes at
least its header line before the next offset is recorded. -/
theorem hhFrom_offsets_pairwise {σ : Type} (env : HLEnv σ) :
    ∀ (hs : List OwnedDiffHunk) (n : Nat),
      (highlightHunksFrom env hs n).2.Pairwise (· < ·)
  | [], _ => List.Pairwise.nil
  | hk :: rest, n => by
      simp only [highlightHunksFrom]
      refine List.Pairwise.cons ?_ (hhFrom_offsets_pairwise env rest _)
      intro x hx
      have hle := hhFrom_offsets_lb env rest _ x hx
      simp only [List.length_cons] at hle
      omega

/-- Projections of `process_diff`'s payload in terms of the extraction and
highlighting primitives. -/
theorem processDiff_proj {σ : Type} (mkEnv : Str → HLEnv σ) (mode : DiffMode)
    (ds : List FileDiff) :
    (processDiff mkEnv mode ds).hunks = (extractHunks (diffEvents ds)).1 ∧
    (processDiff mkEnv mode ds).files = extractFiles (diffEvents ds) ∧
    (processDiff mkEnv mode ds).hunk_offsets =
      (highlightHunks (mkEnv (diffExt ds)) (extractHunks (diffEvents ds)).1).2 ∧
    (processDiff mkEnv mode ds).file_line_offsets =
      (extractHunks (diffEvents ds)).2.map (fun k =>
        ((highlightHunks (mkEnv (diffExt ds))
            (extractHunks (diffEvents ds)).1).2.get? k).getD 0) :=
  ⟨rfl, rfl, rfl, rfl⟩

/-- Every payload of `handle_request` is either the empty degradation
payload or the result of `process_diff` on a resolved diff. -/
theorem handleRequest_shape {σ : Type} (mkEnv : Str → HLEnv σ) (repo : Repo)
    (req : GitRequest) :
    (∃ mode, handleRequest mkEnv repo req = emptyPayload mode) ∨
    (∃ mode ds, handleRequest mkEnv repo req = processDiff mkEnv mode ds) := by
  cases req with
  | loadDiff mode =>
      cases h : getDiffForMode repo mode with
      | ok ds => exact Or.inr ⟨mode, ds, by simp [handleRequest, h]⟩
      | error e => exact Or.inl ⟨mode, by simp [handleRequest, h]⟩
  | loadDiffRange f t =>
      cases h : getDiffForRange repo f t with
      | ok ds => exact Or.inr ⟨DiffMode.commitRange, ds, by simp [handleRequest, h]⟩
      | error e => exact Or.inl ⟨DiffMode.commitRange, by simp [handleRequest, h]⟩

/-- The worker loop body runs once per received request, whatever the send
outcomes are. -/
theorem workerGo_count {σ : Type} (mkEnv : Str → HLEnv σ) (repo : Repo)
    (alive : Nat → Bool) :
    ∀ (reqs : List GitRequest) (i : Nat),
      (workerGo mkEnv repo alive reqs i).2 = reqs.length
  | [], _ => rfl
  | r :: rs, i => by
      simp [workerGo, workerGo_count mkEnv repo alive rs (i + 1)]

/-- Folding the combined step is the same as folding the two extraction
steps separately. -/
theorem foldl_extractAllStep (evs : List DiffEvent)
    (a : List OwnedDiffHunk × List Nat) (b : List FileSummary) :
    evs.foldl extractAllStep (a, b) =
      (evs.foldl extractHunksStep a, evs.foldl extractFilesStep b) := by
  induction evs generalizing a b with
  | nil => rfl
  | cons e evs ih => simpa only [List.foldl_cons] using ih _ _

/-- The `mainStep` performs exactly one draw on a received `Render` event and
none otherwise. -/
theorem mainStep_draw_count (flag : Bool) (s : LoopStimulus) :
    (mainStep flag s).1.length = renderStimCount s := by
  cases s with
  | heartbeat => rfl
  | recv e =>
      cases e with
      | none => rfl
      | some a => cases a <;> rfl

/-- The `eventTaskStep` emits exactly one `Render` event on a render-interval
tick and none for any other ready source. -/
theorem eventTaskStep_render_count (ts : TaskStimulus) :
    ((eventTaskStep ts).filter isRenderEvent).length = renderTimerCount ts := by
  cases ts with
  | tickTimer => rfl
  | renderTimer => rfl
  | term r =>
      cases r with
      | ok e =>
          cases e with
          | key k =>
              by_cases hk : k.kind = KeyEventKind.press <;>
                simp [eventTaskStep, hk, isRenderEvent, renderTimerCount]
          | resize w h => rfl
          | mouse m => rfl
          | otherEvent => rfl
      | readErr => rfl
      | streamEnd => rfl

/-- On a list that does not start with two newlines, dropping all leading
newlines is dropping at most one; stated in the reversed form used by the
trailing-newline trim. -/
theorem dropWhile_reverse_single :
    ∀ (r : Str), ¬ List.IsPrefix ['\n', '\n'] r →
      (r.dropWhile (fun c => c = '\n')).reverse =
        stripOneTrailingNewline r.reverse
  | [], _ => rfl
  | c :: r', h => by
      by_cases hc : c = '\n'
      · subst hc
        cases r' with
        | nil => rfl
        | cons c2 r'' =>
            have hc2 : ¬ c2 = '\n' := by
              intro h2
              subst h2
              exact h ⟨r'', rfl⟩
            rw [List.dropWhile_cons, if_pos (by decide)]
            rw [List.dropWhile_cons, if_neg (by simpa using hc2)]
            simp only [List.reverse_cons, stripOneTrailingNewline]
            rw [List.getLast?_concat, if_pos rfl, List.dropLast_concat]
      · rw [List.dropWhile_cons, if_neg (by simpa using hc)]
        simp only [List.reverse_cons, stripOneTrailingNewline]
        rw [List.getLast?_concat, if_neg (fun hx => hc (Option.some.inj hx))]

/-- C10: a line event reported before any hunk (in `extract_hunks`) or
before any delta (in `extract_files`) is silently discarded: the step
functions are total (no panic, no out-of-bounds indexing) and return the
accumulated state unchanged for such an orphan line, and a whole traversal
beginning with an orphan line yields the same results as one without it. -/
theorem c10_orphan_line_discarded :
    ∀ (l : LineInfo) (st : List Nat) (evs : List DiffEvent),
      extractHunksStep ([], st) (DiffEvent.line l) = ([], st) ∧
      extractFilesStep [] (DiffEvent.line l) = [] ∧
      extractHunks (DiffEvent.line l :: evs) = extractHunks evs ∧
      extractFiles (DiffEvent.line l :: evs) = extractFiles evs := by
  intro l st evs
  exact ⟨rfl, rfl, rfl, rfl⟩

/-- C2 counterexample: `process_diff` does not perform a single traversal of
the resolved diff; it traverses it twice, once in `extract_hunks` and once
in `extract_files` (worker.rs lines 134-135), so the traversal count is 2
and not 1. -/
theorem c2_counterexample :
    processDiffForeachCalls = 2 ∧ ¬ processDiffForeachCalls = 1 := by
  exact ⟨rfl, by decide⟩

/-- C2 (amended): the diff is traversed twice by `process_diff`
(`extract_hunks` and `extract_files`, one `diff.foreach` each); each of the
two functions is single-pass for its own outputs, and together they compute
exactly what one combined single-pass traversal would compute: folding the
combined step over the callback sequence yields the hunk list, the per-file
starting hunk indices, and the per-file summaries at once. -/
theorem c2_two_single_pass_traversals :
    processDiffForeachCalls = 2 ∧
    ∀ evs : List DiffEvent,
      extractAll evs = (extractHunks evs, extractFiles evs) := by
  refine ⟨rfl, ?_⟩
  intro evs
  exact foldl_extractAllStep evs ([], []) []

/-- C3 counterexample: with the result receiver gone from the start (every
send fails), a worker given two requests still processes both — the loop
does not terminate on the iteration following a failed send, contradicting
the claim that no further requests are processed. -/
theorem c3_counterexample :
    (gitWorkerLoop trivMkEnv (Except.ok trivRepo)
        [GitRequest.loadDiff DiffMode.unstaged,
         GitRequest.loadDiff DiffMode.unstaged] (fun _ => false)).2 = 2 ∧
    ¬ (gitWorkerLoop trivMkEnv (Except.ok trivRepo)
        [GitRequest.loadDiff DiffMode.unstaged,
         GitRequest.loadDiff DiffMode.unstaged] (fun _ => false)).2 = 1 := by
  constructor
  · rfl
  · intro h
    have h2 : (gitWorkerLoop trivMkEnv (Except.ok trivRepo)
        [GitRequest.loadDiff DiffMode.unstaged,
         GitRequest.loadDiff DiffMode.unstaged] (fun _ => false)).2 = 2 := rfl
    omega

/-- C3 (amended): a failed send is non-fatal — the worker neither panics nor
surfaces an error, the send outcome is discarded, and the worker keeps
processing every subsequent request; its loop terminates only when the
request channel is closed (the request list is exhausted), regardless of
whether any receiver is alive. -/
theorem c3_send_failure_nonfatal :
    ∀ {σ : Type} (mkEnv : Str → HLEnv σ) (repo : Repo) (alive : Nat → Bool)
      (reqs : List GitRequest) (i : Nat),
      (workerGo mkEnv repo alive reqs i).2 = reqs.length ∧
      (gitWorkerLoop mkEnv (Except.ok repo) reqs alive).2 = reqs.length := by
  intro σ mkEnv repo alive reqs i
  exact ⟨workerGo_count mkEnv repo alive reqs i,
    workerGo_count mkEnv repo alive reqs 0⟩

/-- C5: `LoadDiff(CommitRange)` is a resolution failure, every resolution
failure yields the empty payload tagged with the requested mode (every
collection empty), no exception escapes (the handler is total), and the
worker keeps serving subsequent requests. -/
theorem c5_commit_range_failure_empty_payload :
    ∀ {σ : Type} (mkEnv : Str → HLEnv σ) (repo : Repo),
      (∃ e, getDiffForMode repo DiffMode.commitRange = Except.error e) ∧
      (∀ (mode : DiffMode) (e : GitErr),
          getDiffForMode repo mode = Except.error e →
          handleRequest mkEnv repo (GitRequest.loadDiff mode) =
            emptyPayload mode) ∧
      (∀ (alive : Nat → Bool) (reqs : List GitRequest) (i : Nat),
          (workerGo mkEnv repo alive reqs i).2 = reqs.length) := by
  intro σ mkEnv repo
  refine ⟨⟨⟨"CommitRange requires LoadDiffRange".toList⟩, rfl⟩, ?_, ?_⟩
  · intro mode e h
    simp [handleRequest, h]
  · intro alive reqs i
    exact workerGo_count mkEnv repo alive reqs i

/-- C5 witness: the concrete `LoadDiff(CommitRange)` request on a concrete
repository produces the empty `CommitRange` payload. -/
theorem c5_commit_range_failure_empty_payload_witness :
    handleRequest trivMkEnv trivRepo
        (GitRequest.loadDiff DiffMode.commitRange) =
      emptyPayload DiffMode.commitRange :=
  (c5_commit_range_failure_empty_payload trivMkEnv trivRepo).2.1
    DiffMode.commitRange ⟨"CommitRange requires LoadDiffRange".toList⟩ rfl

/-- C9: every delta status other than added, deleted or renamed is reported
as `'M'`, and every file summary of every worker payload has a status
character drawn from `{'A', 'D', 'R', 'M'}`. -/
theorem c9_status_char_closed_set :
    (∀ d : Delta, d ≠ Delta.added → d ≠ Delta.deleted → d ≠ Delta.renamed →
        statusChar d = 'M') ∧
    (∀ {σ : Type} (mkEnv : Str → HLEnv σ) (repo : Repo) (req : GitRequest)
        (f : FileSummary), f ∈ (handleRequest mkEnv repo req).files →
        f.status = 'A' ∨ f.status = 'D' ∨ f.status = 'R' ∨ f.status = 'M') := by
  constructor
  · intro d h1 h2 h3
    exact statusChar_other d h1 h2 h3
  · intro σ mkEnv repo req f hf
    rcases handleRequest_shape mkEnv repo req with ⟨mode, hshape⟩ | ⟨mode, ds, hshape⟩
    · rw [hshape] at hf
      cases hf
    · rw [hshape, (processDiff_proj mkEnv mode ds).2.1] at hf
      exact extractFiles_fold_status (diffEvents ds) [] (by intro g hg; cases hg) f hf

/-- C9 witness: a `Copied` delta reports `'M'`, and the concrete summary the
worker produces for the sample repository (whose only delta is `Copied`)
carries a status in the closed set. -/
theorem c9_status_char_closed_set_witness :
    statusChar Delta.copied = 'M' ∧
    ((⟨"a.rs".toList, 'M', 1, 1⟩ : FileSummary).status = 'A' ∨
      (⟨"a.rs".toList, 'M', 1, 1⟩ : FileSummary).status = 'D' ∨
      (⟨"a.rs".toList, 'M', 1, 1⟩ : FileSummary).status = 'R' ∨
      (⟨"a.rs".toList, 'M', 1, 1⟩ : FileSummary).status = 'M') :=
  ⟨c9_status_char_closed_set.1 Delta.copied (by decide) (by decide) (by decide),
   c9_status_char_closed_set.2 trivMkEnv sampleRepo
     (GitRequest.loadDiff DiffMode.unstaged) ⟨"a.rs".toList, 'M', 1, 1⟩
     (by decide)⟩

/-- C8: in the scheduler loop, exactly one draw is performed per received
`Render` event and none for any other event source (heartbeat, logic tick,
input, resize, worker result, cancellation check, channel close), and the
event task emits exactly one `Render` event per fast-timer (render-interval)
tick and none for any other ready source; hence over any sequence of ready
sources the number of `Render` events emitted equals the number of
fast-timer ticks. -/
theorem c8_one_redraw_per_render_tick :
    (∀ (flag : Bool) (s : LoopStimulus),
        (mainStep flag s).1.length = renderStimCount s) ∧
    (∀ ts : TaskStimulus,
        ((eventTaskStep ts).filter isRenderEvent).length = renderTimerCount ts) ∧
    (∀ stims : List TaskStimulus,
        ((eventTaskSends stims).filter isRenderEvent).length =
          (stims.map renderTimerCount).sum) := by
  refine ⟨mainStep_draw_count, eventTaskStep_render_count, ?_⟩
  intro stims
  induction stims with
  | nil => rfl
  | cons s rest ih =>
      simp only [eventTaskSends, List.flatMap_cons, List.filter_append,
        List.length_append, List.map_cons, List.sum_cons]
      rw [eventTaskStep_render_count s]
      simp only [eventTaskSends] at ih
      rw [ih]

/-- C4: `hunk_offsets` is strictly increasing and has one entry per hunk,
for every abstract highlighter environment — in particular both when a theme
is present (syntax-highlighting path) and when it is absent (plain fallback
path) — and consequently for every payload the worker produces. -/
theorem c4_hunk_offsets_invariant :
    (∀ {σ : Type} (env : HLEnv σ) (hunks : List OwnedDiffHunk),
        (highlightHunks env hunks).2.length = hunks.length ∧
        (highlightHunks env hunks).2.Pairwise (· < ·)) ∧
    (∀ {σ : Type} (mkEnv : Str → HLEnv σ) (repo : Repo) (req : GitRequest),
        (handleRequest mkEnv repo req).hunk_offsets.length =
          (handleRequest mkEnv repo req).hunks.length ∧
        (handleRequest mkEnv repo req).hunk_offsets.Pairwise (· < ·)) := by
  constructor
  · intro σ env hunks
    exact ⟨hhFrom_offsets_length env hunks 0, hhFrom_offsets_pairwise env hunks 0⟩
  · intro σ mkEnv repo req
    rcases handleRequest_shape mkEnv repo req with ⟨mode, hshape⟩ | ⟨mode, ds, hshape⟩
    · rw [hshape]
      exact ⟨rfl, List.Pairwise.nil⟩
    · rw [hshape, (processDiff_proj mkEnv mode ds).1,
        (processDiff_proj mkEnv mode ds).2.2.1]
      exact ⟨hhFrom_offsets_length _ _ 0, hhFrom_offsets_pairwise _ _ 0⟩

/-- C7: for a diff line (whose content carries at most one trailing newline,
expressed as: the marker-stripped content does not end in two newlines), the
text fed to the language highlighter is the content with at most one leading
origin marker removed (only if present — `stripMarker`) and at most one
trailing newline trimmed, and no other character removed. -/
theorem c7_highlighter_input (content : Str)
    (h : ¬ List.IsSuffix ['\n', '\n'] (stripMarker content)) :
    lineCode content = stripOneTrailingNewline (stripMarker content) := by
  have hp : ¬ List.IsPrefix ['\n', '\n'] (stripMarker content).reverse := by
    intro hpre
    apply h
    have hrev : (['\n', '\n'] : Str).reverse <+: (stripMarker content).reverse := by
      simpa using hpre
    exact List.reverse_prefix.mp hrev
  have hd := dropWhile_reverse_single (stripMarker content).reverse hp
  rw [List.reverse_reverse] at hd
  simpa [lineCode, trimEndNewlines] using hd

/-- C7 witness: the concrete added line `"+foo\n"` is fed to the highlighter
as `"foo"`. -/
theorem c7_highlighter_input_witness :
    (¬ List.IsSuffix ['\n', '\n'] (stripMarker ("+foo\n".toList))) ∧
    lineCode ("+foo\n".toList) =
      stripOneTrailingNewline (stripMarker ("+foo\n".toList)) :=
  ⟨by decide, c7_highlighter_input ("+foo\n".toList) (by decide)⟩

/-- C6: a hunk consisting of one removed line immediately followed by one
added line flattens to exactly three lines — the styled header, the
word-diffed old line prefixed as removed, and the word-diffed new line
prefixed as added, in that order — with `hunk_offsets = [0]`. -/
theorem c6_modified_pair_three_lines :
    ∀ {σ : Type} (env : HLEnv σ) (hdr : Str) (os ns : Nat)
      (l1 l2 : OwnedDiffLine),
      env.theme = some () → l1.origin = '-' → l2.origin = '+' →
      highlightHunks env [⟨hdr, os, ns, [l1, l2]⟩] =
        ([headerLine ⟨hdr, os, ns, [l1, l2]⟩,
          removedMarkSpan ::
            (wordDiffSpans env (lineCode l1.content) (lineCode l2.content)).1,
          addedMarkSpan ::
            (wordDiffSpans env (lineCode l1.content) (lineCode l2.content)).2],
         [0]) := by
  intro σ env hdr os ns l1 l2 ht h1 h2
  simp [highlightHunks, highlightHunksFrom, ht, hunkBody, h1, h2, flushPending]

/-- C6 witness: the concrete removed/added pair `"-foo\n"` / `"+bar\n"`
under the trivial environment. -/
theorem c6_modified_pair_three_lines_witness :
    highlightHunks trivEnv
        [⟨"@@ -1 +1 @@\n".toList, 1, 1, [sampleRemOwned, sampleAddOwned]⟩] =
      ([headerLine ⟨"@@ -1 +1 @@\n".toList, 1, 1,
          [sampleRemOwned, sampleAddOwned]⟩,
        removedMarkSpan :: (wordDiffSpans trivEnv
          (lineCode sampleRemOwned.content)
          (lineCode sampleAddOwned.content)).1,
        addedMarkSpan :: (wordDiffSpans trivEnv
          (lineCode sampleRemOwned.content)
          (lineCode sampleAddOwned.content)).2],
       [0]) :=
  c6_modified_pair_three_lines trivEnv ("@@ -1 +1 @@\n".toList) 1 1
    sampleRemOwned sampleAddOwned rfl rfl rfl

/-- The `file_line_offsets` has one entry per file summary. -/
theorem processDiff_flo_length {σ : Type} (mkEnv : Str → HLEnv σ)
    (mode : DiffMode) (ds : List FileDiff) :
    (processDiff mkEnv mode ds).file_line_offsets.length =
      (processDiff mkEnv mode ds).files.length := by
  rw [(processDiff_proj mkEnv mode ds).2.2.2, (processDiff_proj mkEnv mode ds).2.1,
    List.length_map, extractHunks_starts, List.length_map, List.length_range,
    extractFiles_length]

/-- C1: for every payload, `file_line_offsets` has the same length as
`files`, and entry `i` equals `hunk_offsets[file_hunk_starts[i]]` whenever
that index is defined, the value `0` arising exactly from the out-of-range
default — in particular only when file `i` has zero hunks. -/
theorem c1_file_line_offsets :
    ∀ {σ : Type} (mkEnv : Str → HLEnv σ) (mode : DiffMode) (ds : List FileDiff),
      (processDiff mkEnv mode ds).file_line_offsets.length =
        (processDiff mkEnv mode ds).files.length ∧
      (∀ (repo : Repo) (req : GitRequest),
          (handleRequest mkEnv repo req).file_line_offsets.length =
            (handleRequest mkEnv repo req).files.length) ∧
      (∀ (i : Nat) (f : FileDiff), ds[i]? = some f →
          ∃ v, (processDiff mkEnv mode ds).file_line_offsets[i]? = some v ∧
            ((∃ k w, (extractHunks (diffEvents ds)).2[i]? = some k ∧
                (processDiff mkEnv mode ds).hunk_offsets[k]? = some w ∧ v = w) ∨
             (f.hunks = [] ∧ v = 0))) := by
  intro σ mkEnv mode ds
  refine ⟨processDiff_flo_length mkEnv mode ds, ?_, ?_⟩
  · intro repo req
    rcases handleRequest_shape mkEnv repo req with ⟨m, hs⟩ | ⟨m, ds2, hs⟩
    · rw [hs]
      rfl
    · rw [hs]
      exact processDiff_flo_length mkEnv m ds2
  · intro i f hif
    have hi : i < ds.length := (List.getElem?_eq_some.mp hif).1
    have hstart : (extractHunks (diffEvents ds)).2[i]? =
        some (hunksBefore ds i) := by
      rw [extractHunks_starts]
      simp [List.getElem?_map, List.getElem?_range, hi]
    have hOlen : (highlightHunks (mkEnv (diffExt ds))
        (extractHunks (diffEvents ds)).1).2.length = totalHunks ds := by
      rw [← extractHunks_length ds]
      exact hhFrom_offsets_length _ _ 0
    have hflo : (processDiff mkEnv mode ds).file_line_offsets[i]? =
        some (((highlightHunks (mkEnv (diffExt ds))
          (extractHunks (diffEvents ds)).1).2.get? (hunksBefore ds i)).getD 0) := by
      rw [(processDiff_proj mkEnv mode ds).2.2.2, List.getElem?_map, hstart,
        Option.map_some']
    by_cases hk : hunksBefore ds i < totalHunks ds
    · have hk2 : hunksBefore ds i < (highlightHunks (mkEnv (diffExt ds))
          (extractHunks (diffEvents ds)).1).2.length := by omega
      refine ⟨(highlightHunks (mkEnv (diffExt ds))
          (extractHunks (diffEvents ds)).1).2[hunksBefore ds i], ?_,
        Or.inl ⟨hunksBefore ds i, _, hstart, ?_, rfl⟩⟩
      · rw [hflo, List.get?_eq_getElem?, List.getElem?_eq_getElem hk2]
        rfl
      · rw [(processDiff_proj mkEnv mode ds).2.2.1,
          List.getElem?_eq_getElem hk2]
    · have hge : (highlightHunks (mkEnv (diffExt ds))
          (extractHunks (diffEvents ds)).1).2.length ≤ hunksBefore ds i := by
        omega
      have hnone : (highlightHunks (mkEnv (diffExt ds))
          (extractHunks (diffEvents ds)).1).2.get? (hunksBefore ds i) = none := by
        rw [List.get?_eq_getElem?]
        exact List.getElem?_eq_none hge
      have hb := hunksBefore_add_le ds i f hif
      have hf0 : f.hunks = [] := by
        have hlen0 : f.hunks.length = 0 := by omega
        exact List.length_eq_zero.mp hlen0
      refine ⟨0, ?_, Or.inr ⟨hf0, rfl⟩⟩
      rw [hflo, hnone]
      rfl

/-- C1 witness: the sample one-file diff, at file index 0. -/
theorem c1_file_line_offsets_witness :
    ∃ v, (processDiff trivMkEnv DiffMode.unstaged sampleDs).file_line_offsets[0]? =
        some v ∧
      ((∃ k w, (extractHunks (diffEvents sampleDs)).2[0]? = some k ∧
          (processDiff trivMkEnv DiffMode.unstaged sampleDs).hunk_offsets[k]? =
            some w ∧ v = w) ∨
       ((⟨sampleDelta, [sampleHunk]⟩ : FileDiff).hunks = [] ∧ v = 0)) :=
  (c1_file_line_offsets trivMkEnv DiffMode.unstaged sampleDs).2.2 0
    ⟨sampleDelta, [sampleHunk]⟩ (by decide)

end Airev
